import Mathlib

/-!
Verification of the Copilot CLI provider
(`src/cli_agent_orchestrator/providers/copilot_cli.py`).

The provider classifies tmux scrollback snapshots into a terminal status and
extracts the latest agent response.  The Python code works with `re` over
`str`; here buffers are `List Char` and each of the module's fixed regular
expressions is embedded by a function implementing its matching semantics
directly (each pattern is simple enough that greedy matching is
deterministic; this is argued in the comment of each function).

Modelling conventions:
* `re.sub(pat, "", s)` scans left to right, deleting each non-overlapping
  match and advancing one character when no match starts at the current
  position; the embeddings below follow that scan literally.
* The whitespace class (regex `\s`, `str.strip`, `str.lower`) is modelled on
  the ASCII range; the buffers and patterns involved never depend on exotic
  Unicode whitespace or case.
* The tmux client is external to the classifier: `get_status` receives the
  snapshot that `tmux_client.get_history` would have returned, and an
  unreadable pane is the empty snapshot (spec section 6).
-/

set_option maxRecDepth 100000

namespace Cao

/-- Whitespace characters of the regex class `\s` and of `str.strip`,
restricted to ASCII. -/
def isSpaceChar (c : Char) : Bool :=
  c = ' ' || c = '\t' || c = '\n' || c = '\r' || c = '\x0b' || c = '\x0c'

/-- Parameter characters of `ANSI_CODE_PATTERN`: the class `[0-9;]`. -/
def isAnsiParam (c : Char) : Bool := c.isDigit || c = ';'

/-- Parameter characters of `ESCAPE_SEQUENCE_PATTERN`: the class `[?0-9;]`. -/
def isEscParam (c : Char) : Bool := c.isDigit || c = ';' || c = '?'

/-- The class `[a-zA-Z]` ending `ESCAPE_SEQUENCE_PATTERN`
(codepoints of `a`-`z` and `A`-`Z`). -/
def isAsciiLetter (c : Char) : Bool :=
  (97 ≤ c.toNat && c.toNat ≤ 122) || (65 ≤ c.toNat && c.toNat ≤ 90)

/-- The class `CONTROL_CHAR_PATTERN = [\x00-\x1f\x7f-\x9f]`. -/
def isCtrlChar (c : Char) : Bool :=
  c.toNat ≤ 0x1f || (0x7f ≤ c.toNat && c.toNat ≤ 0x9f)

/-- A match of `ANSI_CODE_PATTERN = "\x1b\[[0-9;]*m"` at the head of the
list: ESC `[`, the greedy run of `[0-9;]`, then `m` (`m` is not a parameter
character, so backtracking cannot produce any other match); returns the
remainder after the match. -/
def ansiSeq : List Char → Option (List Char)
  | c1 :: c2 :: rest =>
    if c1 = '\x1b' then
      if c2 = '[' then
        match rest.dropWhile isAnsiParam with
        | d :: rest2 => if d = 'm' then some rest2 else none
        | [] => none
      else none
    else none
  | _ => none

/-- Scan of `re.sub(ANSI_CODE_PATTERN, "", s)`: delete the match at the
current position or keep one character and continue, exactly as `re.sub`
scans.  The fuel only makes the recursion structural: every step consumes at
least one character, so `fuel = length` (as used by `stripAnsi`) never runs
out. -/
def stripAnsiFuel : Nat → List Char → List Char
  | _, [] => []
  | 0, l => l
  | fuel+1, c :: cs =>
    match ansiSeq (c :: cs) with
    | some rest2 => stripAnsiFuel fuel rest2
    | none => c :: stripAnsiFuel fuel cs

/-- `re.sub(ANSI_CODE_PATTERN, "", s)`: delete every color escape sequence. -/
def stripAnsi (l : List Char) : List Char := stripAnsiFuel l.length l

/-- A match of `ESCAPE_SEQUENCE_PATTERN = "\[[?0-9;]*[a-zA-Z]"` at the head
of the list: `[`, the greedy run of `[?0-9;]`, then an ASCII letter (letters
are not parameter characters, so the greedy run cannot backtrack into a
different match); returns the remainder after the match. -/
def escSeq : List Char → Option (List Char)
  | c1 :: rest =>
    if c1 = '[' then
      match rest.dropWhile isEscParam with
      | d :: rest2 => if isAsciiLetter d then some rest2 else none
      | [] => none
    else none
  | [] => none

/-- Scan of `re.sub(ESCAPE_SEQUENCE_PATTERN, "", s)`. -/
def escSubFuel : Nat → List Char → List Char
  | _, [] => []
  | 0, l => l
  | fuel+1, c :: cs =>
    match escSeq (c :: cs) with
    | some rest2 => escSubFuel fuel rest2
    | none => c :: escSubFuel fuel cs

/-- `re.sub(ESCAPE_SEQUENCE_PATTERN, "", s)`. -/
def escSub (l : List Char) : List Char := escSubFuel l.length l

/-- `re.sub(CONTROL_CHAR_PATTERN, "", s)`: a single-character class, so the
substitution is a filter. -/
def ctrlSub (l : List Char) : List Char := l.filter (fun c => !isCtrlChar c)

/-- Python `str.strip()`: remove leading and trailing whitespace. -/
def pyStrip (l : List Char) : List Char :=
  ((l.dropWhile isSpaceChar).reverse.dropWhile isSpaceChar).reverse

/-- Greedy `\s*`: drop the maximal whitespace run. -/
def skipWs (l : List Char) : List Char := l.dropWhile isSpaceChar

/-- Length of the maximal whitespace run (the extent of a greedy `\s*`). -/
def wsRun (l : List Char) : Nat := (l.takeWhile isSpaceChar).length

/-- The optional group `(?:\d+%\s*)?` of the idle prompt pattern.  The group
participates in the match exactly when a nonempty digit run is followed by
`%` (a digit run not followed by `%` makes both the group and — since a digit
can continue as neither `!` nor `>` — the whole pattern fail, which the
caller detects on the unchanged list). -/
def pctSkip (l : List Char) : List Char :=
  if (l.takeWhile Char.isDigit).isEmpty then l
  else
    match l.dropWhile Char.isDigit with
    | d :: rest => if d = '%' then skipWs rest else l
    | [] => l

/-- The optional `!?`: consuming the `!` when present is equivalent to the
regex, because if the next character is not `>` the pattern fails either
way. -/
def bangSkip : List Char → List Char
  | c :: rest => if c = '!' then rest else c :: rest
  | [] => []

/-- Tail of `_idle_prompt_pattern` after the closing bracket:
`\s*(?:\d+%\s*)?!?>\s*[\s\n]*$` with `re.search` and no flags.  Without
`re.MULTILINE`, `$` matches at the end of the buffer or just before a final
newline; since `\n` is itself whitespace, the two greedy whitespace runs
reach such a position exactly when everything after the `>` is whitespace. -/
def idleTailSpace (l : List Char) : Bool :=
  match bangSkip (pctSkip (skipWs l)) with
  | c :: rest => c = '>' && rest.all isSpaceChar
  | [] => false

/-- `$` under `re.MULTILINE`: reachable by a whitespace run exactly when the
maximal whitespace run contains a newline or extends to the end. -/
def mlDollarTail : List Char → Bool
  | [] => true
  | c :: cs => if c = '\n' then true else if isSpaceChar c then mlDollarTail cs else false

/-- Tail of the idle prompt pattern when compiled with
`re.MULTILINE | re.DOTALL` (as inside `_permission_prompt_pattern`). -/
def idleTailSpaceML (l : List Char) : Bool :=
  match bangSkip (pctSkip (skipWs l)) with
  | c :: rest => c = '>' && mlDollarTail rest
  | [] => false

/-- A match of `_idle_prompt_pattern` starting at position `i`:
`\[<re.escape(profile)>\]` matches the profile literally, then the tail.
(`re.escape` makes the embedded profile a literal, which is why the matcher
takes the profile string itself.) -/
def idleMatchAt (profile s : List Char) (i : Nat) : Bool :=
  (('[' :: (profile ++ [']'])).isPrefixOf (s.drop i)) &&
    idleTailSpace ((s.drop i).drop (profile.length + 2))

/-- The idle prompt match under `re.MULTILINE | re.DOTALL`. -/
def idleMatchAtML (profile s : List Char) (i : Nat) : Bool :=
  (('[' :: (profile ++ [']'])).isPrefixOf (s.drop i)) &&
    idleTailSpaceML ((s.drop i).drop (profile.length + 2))

/-- Start position of the match found by `re.search(_idle_prompt_pattern, s)`
(and the unique match yielded by `re.finditer`): the pattern is anchored at
`$` and its greedy trailing `\s*` always consumes to the end of the buffer,
so `finditer` yields at most one (the leftmost) match. -/
def idleStartIn (profile s : List Char) : Option Nat :=
  (List.range (s.length + 1)).find? (idleMatchAt profile s)

/-- Existence of an idle prompt match (`re.search` is truthy). -/
def hasIdlePrompt (profile s : List Char) : Bool := (idleStartIn profile s).isSome

/-- `^` under `re.MULTILINE`: start of the buffer or right after a newline. -/
def lineStartAt (s : List Char) (i : Nat) : Bool :=
  i == 0 || s[i-1]? == some '\n'

/-- A match of `GREEN_ARROW_PATTERN = "^>\s*"` (with `re.MULTILINE`) starts at
`i`.  The part after the `>` is whitespace, so no later match start can fall
inside an earlier match: the `finditer` matches are exactly the line-start
`>` positions. -/
def greenArrowAt (s : List Char) (i : Nat) : Bool :=
  lineStartAt s i && s[i]? == some '>'

/-- Start positions of all `re.finditer(GREEN_ARROW_PATTERN, s, re.MULTILINE)`
matches, in order. -/
def greenStarts (s : List Char) : List Nat :=
  (List.range s.length).filter (greenArrowAt s)

/-- Existence of a response marker (`re.search` on the green arrow pattern). -/
def hasGreenArrow (s : List Char) : Bool := !(greenStarts s).isEmpty

/-- `green_arrows[-1].end()`: the last match's start, plus the `>`, plus its
greedy whitespace run. -/
def lastGreenEnd (s : List Char) : Option Nat :=
  (greenStarts s).getLast?.map (fun i => i + 1 + wsRun (s.drop (i + 1)))

/-- The single entry of `ERROR_INDICATORS`. -/
def errorIndicator : List Char :=
  "Copilot is having trouble responding right now".toList

/-- Python `str.lower()`, ASCII model (the error indicator is pure ASCII). -/
def lowerAll (l : List Char) : List Char := l.map Char.toLower

/-- Python substring test `needle in hay`. -/
def containsSub (needle hay : List Char) : Bool :=
  (List.range (hay.length + 1)).any (fun i => needle.isPrefixOf (hay.drop i))

/-- `any(indicator.lower() in clean_output.lower() for indicator in ERROR_INDICATORS)`. -/
def errorOccurs (clean : List Char) : Bool :=
  containsSub (lowerAll errorIndicator) (lowerAll clean)

/-- Literal prefix of `_permission_prompt_pattern`. -/
def allowPhrase : List Char := "Allow this action?".toList

/-- Leftmost occurrence of a literal at position `≥ start`. -/
def findLitFrom (lit s : List Char) (start : Nat) : Option Nat :=
  (List.range (s.length + 1)).find? (fun i => start ≤ i && lit.isPrefixOf (s.drop i))

/-- Leftmost occurrence of a character at position `≥ start`. -/
def findCharFrom (c : Char) (s : List Char) (start : Nat) : Option Nat :=
  (List.range s.length).find? (fun i => start ≤ i && s[i]? == some c)

/-- Earliest position strictly after a chain
`Allow this action\?` `.​*\[` `.​*y` `.​*\/` `.​*n` `.​*\/` `.​*t` under
`re.DOTALL` (each `.​*` may span anything, newlines included).  A match of the
full permission pattern exists iff some `]:` at or after this earliest chain
end is followed by `\s*` and the idle prompt: choosing the leftmost
occurrence at each link only ever leaves more room for the rest of the
pattern, so existence is preserved. -/
def permChainEnd (s : List Char) : Option Nat := do
  let a ← findLitFrom allowPhrase s 0
  let b ← findCharFrom '[' s (a + allowPhrase.length)
  let c ← findCharFrom 'y' s (b + 1)
  let d ← findCharFrom '/' s (c + 1)
  let e ← findCharFrom 'n' s (d + 1)
  let f ← findCharFrom '/' s (e + 1)
  let g ← findCharFrom 't' s (f + 1)
  pure (g + 1)

/-- Rest of the permission pattern at a candidate `]` position `q`:
`\]:\s*` then the idle prompt (whose leading `[` is not whitespace, so the
greedy `\s*` run fixes where the idle prompt must start). -/
def permTailAt (profile s : List Char) (q : Nat) : Bool :=
  s[q]? == some ']' && s[q+1]? == some ':' &&
    idleMatchAtML profile s (q + 2 + wsRun (s.drop (q + 2)))

/-- Truthiness of
`re.search(_permission_prompt_pattern, s, re.MULTILINE | re.DOTALL)`. -/
def permissionMatches (profile s : List Char) : Bool :=
  match permChainEnd s with
  | none => false
  | some f => (List.range s.length).any (fun q => f ≤ q && permTailAt profile s q)

/-- The `TerminalStatus` enum. -/
inductive TerminalStatus
  | idle | processing | completed | waitingUserAnswer | error
deriving DecidableEq, Repr

/-- `CopilotCliProvider.get_status`, as a function of the agent profile and of
the snapshot `tmux_client.get_history` returned (empty when the pane is
unreadable).  The method is a total function of the snapshot: it raises
nothing and mutates nothing. -/
def get_status_core (profile output : List Char) : TerminalStatus :=
  if output.isEmpty then .error
  else
    let cleanOutput := stripAnsi output
    if !(hasIdlePrompt profile cleanOutput) then .processing
    else if errorOccurs cleanOutput then .error
    else if permissionMatches profile cleanOutput then .waitingUserAnswer
    else if hasGreenArrow cleanOutput then .completed
    else .idle

/-- The three `ValueError`s of `extract_last_message_from_script`, named as in
the spec's error taxonomy (section 7). -/
inductive ExtractFailure
  | responseNotFound | incompleteResponse | emptyResponse
deriving DecidableEq, Repr

deriving instance DecidableEq for Except

/-- Python slice `l[a:b]` for `0 ≤ a, b`. -/
def pySlice (l : List Char) (a b : Nat) : List Char := (l.drop a).take (b - a)

/-- The trimmed substring of the color-stripped buffer between the end of the
last response marker and the start of the idle prompt match
(`clean_output[green_arrows[-1].end():idle_prompts[-1].start()].strip()`);
`[]` when either pattern is absent. -/
def trimmedSpan (profile script : List Char) : List Char :=
  match lastGreenEnd (stripAnsi script), idleStartIn profile (stripAnsi script) with
  | some a, some b => pyStrip (pySlice (stripAnsi script) a b)
  | _, _ => []

/-- The final cleanup of `extract_last_message_from_script` (lines 116-119):
a further ANSI pass, the escape-sequence pass, the control-character pass,
then a final strip. -/
def sanitizePass (l : List Char) : List Char :=
  pyStrip (ctrlSub (escSub (stripAnsi l)))

/-- `CopilotCliProvider.extract_last_message_from_script` as a function of the
agent profile, with the three `ValueError`s as `Except` errors. -/
def extract_core (profile script : List Char) : Except ExtractFailure (List Char) :=
  let cleanOutput := stripAnsi script
  match lastGreenEnd cleanOutput, idleStartIn profile cleanOutput with
  | none, _ => .error .responseNotFound
  | some _, none => .error .incompleteResponse
  | some a, some b =>
    let finalAnswer := pyStrip (pySlice cleanOutput a b)
    if finalAnswer.isEmpty then .error .emptyResponse
    else .ok (pyStrip (ctrlSub (escSub (stripAnsi finalAnswer))))

/-- Python 3.7+ `re.escape`: prefix every regex-special character (and
whitespace) with a backslash. -/
def reEscapeChar (c : Char) : List Char :=
  if c = '(' || c = ')' || c = '[' || c = ']' || c = '\x7b' || c = '\x7d' ||
     c = '?' || c = '*' || c = '+' || c = '-' || c = '|' || c = '^' || c = '$' ||
     c = '\\' || c = '.' || c = '&' || c = '~' || c = '#' || c = ' ' ||
     c = '\t' || c = '\n' || c = '\r' || c = '\x0b' || c = '\x0c'
  then ['\\', c] else [c]

/-- `re.escape` over a string. -/
def reEscape (l : List Char) : List Char := l.foldr (fun c acc => reEscapeChar c ++ acc) []

/-- The `_idle_prompt_pattern` source string built in `__init__`. -/
def idlePromptPatternOf (profile : List Char) : List Char :=
  "\\[".toList ++ reEscape profile ++ "\\]\\s*(?:\\d+%\\s*)?!?>\\s*[\\s\\n]*$".toList

/-- The `_permission_prompt_pattern` source string built in `__init__`. -/
def permissionPromptPatternOf (profile : List Char) : List Char :=
  "Allow this action\\?.*\\[.*y.*\\/.*n.*\\/.*t.*\\]:\\s*".toList ++ idlePromptPatternOf profile

/-- In-memory state of a `CopilotCliProvider` instance: the pane identifiers
and profile given to `__init__`, the `_initialized` flag, and the two pattern
strings derived once at construction. -/
structure CopilotCliProvider where
  terminalId : List Char
  sessionName : List Char
  windowName : List Char
  agentProfile : List Char
  initialized : Bool
  idlePromptPattern : List Char
  permissionPromptPattern : List Char
deriving DecidableEq, Repr

/-- `CopilotCliProvider.__init__`. -/
def mkProvider (terminalId sessionName windowName agentProfile : List Char) :
    CopilotCliProvider where
  terminalId := terminalId
  sessionName := sessionName
  windowName := windowName
  agentProfile := agentProfile
  initialized := false
  idlePromptPattern := idlePromptPatternOf agentProfile
  permissionPromptPattern := permissionPromptPatternOf agentProfile

/-- `get_status` as a method: besides the classification it returns the
provider state after the call (the method assigns no field). -/
def get_status (prov : CopilotCliProvider) (snapshot : List Char) :
    TerminalStatus × CopilotCliProvider :=
  (get_status_core prov.agentProfile snapshot, prov)

/-- `extract_last_message_from_script` as a method (assigns no field). -/
def extract_last_message_from_script (prov : CopilotCliProvider) (script : List Char) :
    Except ExtractFailure (List Char) × CopilotCliProvider :=
  (extract_core prov.agentProfile script, prov)

/-- `cleanup`: only clears `_initialized`. -/
def cleanup (prov : CopilotCliProvider) : CopilotCliProvider :=
  { prov with initialized := false }

/-- `exit_cli`. -/
def exit_cli (_prov : CopilotCliProvider) : List Char := "/exit".toList

/-- The two `TimeoutError`s of `initialize`, named as in the spec's error
taxonomy (section 7). -/
inductive InitFailure
  | shellTimeout | agentStartTimeout
deriving DecidableEq, Repr

/-- Modelled from the spec: the bounded-poll primitives `wait_for_shell` and
`wait_until_status` (in `cli_agent_orchestrator.utils.terminal`, not under
`src/`) block up to the given timeout in seconds and report whether the shell
became interactive / the target status was observed (spec sections 4.5, 7). -/
structure PollEnv where
  shellReadyWithin : Nat → Bool
  idleReachedWithin : Nat → Bool

/-- The launch command sent into the pane by `initialize`. -/
def launchCommand (profile : List Char) : List Char :=
  "copilot --agent ".toList ++ profile

/-- `CopilotCliProvider.initialize` against a poll environment.  Returns the
outcome (`True` or the raised error), the provider state after the call, and
the list of commands sent with `tmux_client.send_keys` during the call. -/
def initialize_provider (prov : CopilotCliProvider) (env : PollEnv) :
    Except InitFailure Bool × CopilotCliProvider × List (List Char) :=
  if env.shellReadyWithin 10 = false then
    (.error .shellTimeout, prov, [])
  else if env.idleReachedWithin 30 = false then
    (.error .agentStartTimeout, prov, [launchCommand prov.agentProfile])
  else
    (.ok true, { prov with initialized := true }, [launchCommand prov.agentProfile])

/-- Synthetic marker / idle-prompt wrapper used by the idempotence property:
the response marker before the text, the profile's idle prompt after it. -/
def wrapMsg (profile t : List Char) : List Char :=
  "> ".toList ++ t ++ '\n' :: '[' :: (profile ++ "]>".toList)

/-- Characters that may stand between the closing bracket of the idle prompt
and its `>` glyph: whitespace, the percentage indicator, or the `!` flag. -/
def allowedMid (c : Char) : Bool :=
  isSpaceChar c || c.isDigit || c = '%' || c = '!'

/-! ## Bridging lemmas -/

/-- The scanning substring test agrees with `List.IsInfix`. -/
theorem containsSub_iff_substring (needle hay : List Char) :
    containsSub needle hay = true ↔ needle <:+: hay := by
  unfold containsSub
  rw [List.any_eq_true]
  constructor
  · rintro ⟨i, _, hpre⟩
    rw [List.isPrefixOf_iff_prefix] at hpre
    exact hpre.isInfix.trans (hay.drop_suffix i).isInfix
  · rintro ⟨u, v, rfl⟩
    refine ⟨u.length, List.mem_range.mpr ?_, ?_⟩
    · simp only [List.length_append]
      omega
    · rw [List.isPrefixOf_iff_prefix, List.append_assoc, List.drop_left]
      exact List.prefix_append needle v

/-- The error-phrase check, as a `Prop`: the vendor error phrase occurs as a
case-insensitive substring of the clean buffer. -/
def specErrorPhrasePresent (clean : List Char) : Prop :=
  lowerAll errorIndicator <:+: lowerAll clean

instance (clean : List Char) : Decidable (specErrorPhrasePresent clean) := by
  unfold specErrorPhrasePresent
  exact List.decidableInfix _ _

theorem errorOccurs_iff (clean : List Char) :
    errorOccurs clean = true ↔ specErrorPhrasePresent clean :=
  containsSub_iff_substring _ _

/-- The ordered decision procedure exactly as the specification words it
(section 4.2): empty snapshot, then color stripping, then the idle prompt
gate, then the error phrase as case-insensitive substring, then the
permission prompt, then the response marker, else settled idle. -/
def get_status_spec (profile output : List Char) : TerminalStatus :=
  if output = [] then .error
  else if ¬ hasIdlePrompt profile (stripAnsi output) = true then .processing
  else if specErrorPhrasePresent (stripAnsi output) then .error
  else if permissionMatches profile (stripAnsi output) = true then .waitingUserAnswer
  else if hasGreenArrow (stripAnsi output) = true then .completed
  else .idle

/-! ## C1: the status classification decision procedure -/

/-- C1: for every buffer snapshot, `get_status` returns exactly the status of
the ordered decision procedure (it is a total function, hence never raises):
empty/unavailable snapshot → ERROR; else, after removing color escapes, no
idle prompt → PROCESSING; else an error phrase as case-insensitive substring
→ ERROR (even if a response marker is present); else a permission prompt →
WAITING_USER_ANSWER; else a response marker → COMPLETED; else IDLE. -/
theorem c1_status_decision_procedure :
    (∀ profile output, get_status_core profile output = get_status_spec profile output) ∧
    (∀ profile output, output ≠ [] →
      hasIdlePrompt profile (stripAnsi output) = true →
      errorOccurs (stripAnsi output) = true →
      get_status_core profile output = .error) := by
  have hmain : ∀ profile output,
      get_status_core profile output = get_status_spec profile output := by
    intro profile output
    by_cases h0 : output = []
    · simp [get_status_core, get_status_spec, h0]
    by_cases h1 : hasIdlePrompt profile (stripAnsi output) = true
    case neg =>
      simp [get_status_core, get_status_spec, List.isEmpty_iff, h0, h1]
    by_cases h2 : specErrorPhrasePresent (stripAnsi output)
    · have h2' := (errorOccurs_iff (stripAnsi output)).mpr h2
      simp [get_status_core, get_status_spec, List.isEmpty_iff, h0, h1, h2, h2']
    · have h2' : errorOccurs (stripAnsi output) = false := by
        rw [← Bool.not_eq_true]
        exact fun hc => h2 ((errorOccurs_iff _).mp hc)
      simp [get_status_core, get_status_spec, List.isEmpty_iff, h0, h1, h2, h2']
  refine ⟨hmain, ?_⟩
  intro profile output h0 h1 h2
  rw [hmain]
  have h2' := (errorOccurs_iff (stripAnsi output)).mp h2
  simp [get_status_spec, h0, h1, h2']

/-- Witness for C1 at a concrete buffer holding the idle prompt, the error
phrase and a response marker at once. -/
theorem c1_status_decision_procedure_witness :
    ("Copilot is having trouble responding right now\n> x\n[dev]>".toList ≠
      ([] : List Char)) ∧
    hasIdlePrompt "dev".toList
      (stripAnsi "Copilot is having trouble responding right now\n> x\n[dev]>".toList) = true ∧
    errorOccurs
      (stripAnsi "Copilot is having trouble responding right now\n> x\n[dev]>".toList) = true ∧
    get_status_core "dev".toList
      "Copilot is having trouble responding right now\n> x\n[dev]>".toList = .error :=
  ⟨by decide, by decide, by decide,
    c1_status_decision_procedure.2 _ _ (by decide) (by decide) (by decide)⟩

/-! ## C2 and C10: what extraction returns -/

/-- Counterexample to C2 as stated: this snapshot has a response marker and
an idle prompt in the color-stripped buffer, yet `extract_last_message_from_script`
does not return the trimmed substring between them (`"[42x rate"`): the final
sanitization pass deletes `[42x` and the call returns `"rate"`. -/
theorem c2_counterexample :
    hasGreenArrow (stripAnsi "\x1b[32m> \x1b[39m[42x rate\n[dev]>".toList) = true ∧
    hasIdlePrompt "dev".toList (stripAnsi "\x1b[32m> \x1b[39m[42x rate\n[dev]>".toList) = true ∧
    trimmedSpan "dev".toList "\x1b[32m> \x1b[39m[42x rate\n[dev]>".toList = "[42x rate".toList ∧
    extract_core "dev".toList "\x1b[32m> \x1b[39m[42x rate\n[dev]>".toList ≠
      .ok (trimmedSpan "dev".toList "\x1b[32m> \x1b[39m[42x rate\n[dev]>".toList) ∧
    extract_core "dev".toList "\x1b[32m> \x1b[39m[42x rate\n[dev]>".toList =
      .ok "rate".toList := by
  refine ⟨by decide, by decide, by decide, by decide, by decide⟩

theorem lastGreenEnd_isSome (s : List Char) :
    (lastGreenEnd s).isSome = hasGreenArrow s := by
  unfold lastGreenEnd hasGreenArrow
  cases h : (greenStarts s).getLast? with
  | none =>
    rw [List.getLast?_eq_none_iff] at h
    simp [h]
  | some a =>
    have hne : greenStarts s ≠ [] := by
      intro he
      rw [he] at h
      simp at h
    simp [h, List.isEmpty_iff, hne]

/-- Full case analysis of `extract_last_message_from_script`: which inputs
produce which `ValueError` and what a normal return carries. -/
theorem extract_core_cases (profile script : List Char) :
    (hasGreenArrow (stripAnsi script) = false →
      extract_core profile script = .error .responseNotFound) ∧
    (hasGreenArrow (stripAnsi script) = true →
      hasIdlePrompt profile (stripAnsi script) = false →
      extract_core profile script = .error .incompleteResponse) ∧
    (hasGreenArrow (stripAnsi script) = true →
      hasIdlePrompt profile (stripAnsi script) = true →
      trimmedSpan profile script = [] →
      extract_core profile script = .error .emptyResponse) ∧
    (hasGreenArrow (stripAnsi script) = true →
      hasIdlePrompt profile (stripAnsi script) = true →
      trimmedSpan profile script ≠ [] →
      extract_core profile script = .ok (sanitizePass (trimmedSpan profile script))) := by
  have hG := lastGreenEnd_isSome (stripAnsi script)
  refine ⟨?_, ?_, ?_, ?_⟩
  · intro h
    have hnone : lastGreenEnd (stripAnsi script) = none := by
      rw [← Option.not_isSome_iff_eq_none, hG, h]
      simp
    simp [extract_core, hnone]
  · intro h hid
    obtain ⟨a, ha⟩ : ∃ a, lastGreenEnd (stripAnsi script) = some a := by
      rw [← Option.isSome_iff_exists, hG, h]
    have hi : idleStartIn profile (stripAnsi script) = none := by
      rw [← Option.not_isSome_iff_eq_none]
      unfold hasIdlePrompt at hid
      simp [hid]
    simp [extract_core, ha, hi]
  · intro h hid hspan
    obtain ⟨a, ha⟩ : ∃ a, lastGreenEnd (stripAnsi script) = some a := by
      rw [← Option.isSome_iff_exists, hG, h]
    obtain ⟨b, hb⟩ : ∃ b, idleStartIn profile (stripAnsi script) = some b := by
      rw [← Option.isSome_iff_exists]
      exact hid
    have hsp : trimmedSpan profile script = pyStrip (pySlice (stripAnsi script) a b) := by
      unfold trimmedSpan
      rw [ha, hb]
    rw [hsp] at hspan
    simp [extract_core, ha, hb, hspan]
  · intro h hid hspan
    obtain ⟨a, ha⟩ : ∃ a, lastGreenEnd (stripAnsi script) = some a := by
      rw [← Option.isSome_iff_exists, hG, h]
    obtain ⟨b, hb⟩ : ∃ b, idleStartIn profile (stripAnsi script) = some b := by
      rw [← Option.isSome_iff_exists]
      exact hid
    have hsp : trimmedSpan profile script = pyStrip (pySlice (stripAnsi script) a b) := by
      unfold trimmedSpan
      rw [ha, hb]
    rw [hsp] at hspan
    simp [extract_core, ha, hb, hspan, sanitizePass, hsp]

/-- C2 (amended): on every snapshot whose color-stripped buffer has a
response marker and an idle prompt and whose trimmed in-between substring is
nonempty, extraction returns that trimmed substring *after the final
sanitization pass* (the pass may alter it, witness `c2_counterexample`;
when the trimmed substring is empty the call raises instead). -/
theorem c2_amended_extraction :
    ∀ profile script, hasGreenArrow (stripAnsi script) = true →
      hasIdlePrompt profile (stripAnsi script) = true →
      trimmedSpan profile script ≠ [] →
      extract_core profile script = .ok (sanitizePass (trimmedSpan profile script)) :=
  fun profile script => (extract_core_cases profile script).2.2.2

/-- Witness for the amended C2 at the spec's own example: profile `dev`,
two turns of scrollback, extraction returns only `"World"`. -/
theorem c2_amended_extraction_witness :
    hasGreenArrow
      (stripAnsi "\x1b[32m> \x1b[39mHello\n[dev]>\n\x1b[32m> \x1b[39mWorld\n[dev]>".toList) = true ∧
    hasIdlePrompt "dev".toList
      (stripAnsi "\x1b[32m> \x1b[39mHello\n[dev]>\n\x1b[32m> \x1b[39mWorld\n[dev]>".toList) = true ∧
    trimmedSpan "dev".toList
      "\x1b[32m> \x1b[39mHello\n[dev]>\n\x1b[32m> \x1b[39mWorld\n[dev]>".toList ≠ [] ∧
    extract_core "dev".toList
      "\x1b[32m> \x1b[39mHello\n[dev]>\n\x1b[32m> \x1b[39mWorld\n[dev]>".toList =
      .ok "World".toList := by
  refine ⟨by decide, by decide, by decide, ?_⟩
  rw [c2_amended_extraction "dev".toList
    "\x1b[32m> \x1b[39mHello\n[dev]>\n\x1b[32m> \x1b[39mWorld\n[dev]>".toList
    (by decide) (by decide) (by decide)]
  decide

/-- C3: the failure taxonomy of extraction is exactly: no response marker →
`ResponseNotFound`; marker but no idle prompt → `IncompleteResponse`; both
but empty trimmed span → `EmptyResponse`; otherwise a normal return. -/
theorem c3_failure_taxonomy :
    ∀ profile script,
      (hasGreenArrow (stripAnsi script) = false →
        extract_core profile script = .error .responseNotFound) ∧
      (hasGreenArrow (stripAnsi script) = true →
        hasIdlePrompt profile (stripAnsi script) = false →
        extract_core profile script = .error .incompleteResponse) ∧
      (hasGreenArrow (stripAnsi script) = true →
        hasIdlePrompt profile (stripAnsi script) = true →
        trimmedSpan profile script = [] →
        extract_core profile script = .error .emptyResponse) ∧
      (hasGreenArrow (stripAnsi script) = true →
        hasIdlePrompt profile (stripAnsi script) = true →
        trimmedSpan profile script ≠ [] →
        extract_core profile script = .ok (sanitizePass (trimmedSpan profile script))) :=
  fun profile script => extract_core_cases profile script

/-- Witness for C3: one concrete input per branch of the taxonomy. -/
theorem c3_failure_taxonomy_witness :
    extract_core "dev".toList "[dev]>".toList = .error .responseNotFound ∧
    extract_core "dev".toList "> x".toList = .error .incompleteResponse ∧
    extract_core "dev".toList "> \n[dev]>".toList = .error .emptyResponse ∧
    extract_core "dev".toList "> ok\n[dev]>".toList =
      .ok (sanitizePass (trimmedSpan "dev".toList "> ok\n[dev]>".toList)) :=
  ⟨(c3_failure_taxonomy "dev".toList "[dev]>".toList).1 (by decide),
   (c3_failure_taxonomy "dev".toList "> x".toList).2.1 (by decide) (by decide),
   (c3_failure_taxonomy "dev".toList "> \n[dev]>".toList).2.2.1
     (by decide) (by decide) (by decide),
   (c3_failure_taxonomy "dev".toList "> ok\n[dev]>".toList).2.2.2
     (by decide) (by decide) (by decide)⟩

/-- C10: the second sanitization pass deletes `[` + parameters + letter even
from ordinary printable content: a successful extraction whose response span
is `"[abc] done"` returns `"bc] done"`. -/
theorem c10_escape_pass_eats_content :
    trimmedSpan "dev".toList "\x1b[32m> \x1b[39m[abc] done\n[dev]>".toList =
      "[abc] done".toList ∧
    extract_core "dev".toList "\x1b[32m> \x1b[39m[abc] done\n[dev]>".toList =
      .ok "bc] done".toList ∧
    escSub "[abc] done".toList = "bc] done".toList := by
  refine ⟨by decide, by decide, by decide⟩

/-! ## C7 and C8: provider lifecycle and frame conditions -/

/-- C7: `initialize` first gates on the shell (10 s bound), raising
`ShellTimeout` without sending anything; then sends the literal launch
command `copilot --agent <profile>`; then gates on status IDLE (30 s bound),
raising `AgentStartTimeout`; only on success does it set the initialized
flag, and on either failure the flag (false at entry) remains false. -/
theorem c7_initialize_contract :
    ∀ (prov : CopilotCliProvider) (env : PollEnv),
      (env.shellReadyWithin 10 = false →
        initialize_provider prov env = (.error .shellTimeout, prov, [])) ∧
      (env.shellReadyWithin 10 = true → env.idleReachedWithin 30 = false →
        initialize_provider prov env =
          (.error .agentStartTimeout, prov, ["copilot --agent ".toList ++ prov.agentProfile])) ∧
      (env.shellReadyWithin 10 = true → env.idleReachedWithin 30 = true →
        initialize_provider prov env =
          (.ok true, { prov with initialized := true },
            ["copilot --agent ".toList ++ prov.agentProfile])) ∧
      (prov.initialized = false → ∀ e, (initialize_provider prov env).1 = .error e →
        (initialize_provider prov env).2.1.initialized = false) := by
  intro prov env
  refine ⟨?_, ?_, ?_, ?_⟩
  · intro h
    simp [initialize_provider, h, launchCommand]
  · intro h1 h2
    simp [initialize_provider, h1, h2, launchCommand]
  · intro h1 h2
    simp [initialize_provider, h1, h2, launchCommand]
  · intro hinit e herr
    unfold initialize_provider at herr ⊢
    by_cases h1 : env.shellReadyWithin 10 = false
    · simp [h1, hinit]
    · rw [if_neg h1] at herr ⊢
      by_cases h2 : env.idleReachedWithin 30 = false
      · simp [h2, hinit]
      · rw [if_neg h2] at herr
        simp at herr

/-- Witness for C7: both failure branches and the success branch at concrete
environments. -/
theorem c7_initialize_contract_witness :
    initialize_provider (mkProvider "t1".toList "s".toList "w".toList "dev".toList)
      ⟨fun _ => false, fun _ => true⟩ =
      (.error .shellTimeout, mkProvider "t1".toList "s".toList "w".toList "dev".toList, []) ∧
    initialize_provider (mkProvider "t1".toList "s".toList "w".toList "dev".toList)
      ⟨fun _ => true, fun _ => false⟩ =
      (.error .agentStartTimeout, mkProvider "t1".toList "s".toList "w".toList "dev".toList,
        ["copilot --agent dev".toList]) ∧
    initialize_provider (mkProvider "t1".toList "s".toList "w".toList "dev".toList)
      ⟨fun _ => true, fun _ => true⟩ =
      (.ok true,
        { mkProvider "t1".toList "s".toList "w".toList "dev".toList with initialized := true },
        ["copilot --agent dev".toList]) := by
  refine ⟨?_, ?_, ?_⟩
  · exact (c7_initialize_contract _ _).1 rfl
  · have h := (c7_initialize_contract
      (mkProvider "t1".toList "s".toList "w".toList "dev".toList)
      ⟨fun _ => true, fun _ => false⟩).2.1 rfl rfl
    rw [h]
    decide
  · have h := (c7_initialize_contract
      (mkProvider "t1".toList "s".toList "w".toList "dev".toList)
      ⟨fun _ => true, fun _ => true⟩).2.2.1 rfl rfl
    rw [h]
    decide

/-- C8: no operation mutates the identity fields, the profile or the derived
patterns; `get_status` and `extract_last_message_from_script` modify no field
at all; `cleanup` only clears the initialized flag; `initialize` touches only
the initialized flag. -/
theorem c8_frame_conditions :
    ∀ (prov : CopilotCliProvider) (snapshot script : List Char) (env : PollEnv),
      (get_status prov snapshot).2 = prov ∧
      (extract_last_message_from_script prov script).2 = prov ∧
      cleanup prov = { prov with initialized := false } ∧
      ((initialize_provider prov env).2.1.terminalId = prov.terminalId ∧
       (initialize_provider prov env).2.1.sessionName = prov.sessionName ∧
       (initialize_provider prov env).2.1.windowName = prov.windowName ∧
       (initialize_provider prov env).2.1.agentProfile = prov.agentProfile ∧
       (initialize_provider prov env).2.1.idlePromptPattern = prov.idlePromptPattern ∧
       (initialize_provider prov env).2.1.permissionPromptPattern =
         prov.permissionPromptPattern) := by
  intro prov snapshot script env
  refine ⟨rfl, rfl, rfl, ?_⟩
  unfold initialize_provider
  split
  · exact ⟨rfl, rfl, rfl, rfl, rfl, rfl⟩
  · split
    · exact ⟨rfl, rfl, rfl, rfl, rfl, rfl⟩
    · exact ⟨rfl, rfl, rfl, rfl, rfl, rfl⟩

/-! ## C5: the sanitization pass removes control bytes and keeps non-ASCII text -/

theorem isDigit_small {a : Char} (h : a.isDigit = true) : a.toNat < 160 := by
  simp [Char.isDigit] at h
  obtain ⟨_, h2⟩ := h
  have h3 : a.val.toNat ≤ (57 : UInt32).toNat := h2
  have h4 : (57 : UInt32).toNat = 57 := by decide
  simp [Char.toNat]
  omega

theorem isAnsiParam_small {a : Char} (h : isAnsiParam a = true) : a.toNat < 160 := by
  simp [isAnsiParam] at h
  rcases h with h | h
  · exact isDigit_small h
  · subst h
    decide

theorem isEscParam_small {a : Char} (h : isEscParam a = true) : a.toNat < 160 := by
  simp [isEscParam] at h
  rcases h with (h | h) | h
  · exact isDigit_small h
  · subst h
    decide
  · subst h
    decide

theorem isSpaceChar_small {a : Char} (h : isSpaceChar a = true) : a.toNat < 160 := by
  simp [isSpaceChar] at h
  rcases h with ((((h | h) | h) | h) | h) | h <;> subst h <;> decide

theorem isSpaceChar_of_big {c : Char} (hc : 160 ≤ c.toNat) : isSpaceChar c = false := by
  rcases h : isSpaceChar c with _ | _
  · rfl
  · have := isSpaceChar_small h
    omega

theorem isCtrlChar_of_big {c : Char} (hc : 160 ≤ c.toNat) : isCtrlChar c = false := by
  simp [isCtrlChar]
  omega

theorem count_eq_zero_of_small {c : Char} (hc : 160 ≤ c.toNat) {l : List Char}
    (h : ∀ a ∈ l, a.toNat < 160) : l.count c = 0 := by
  rw [List.count_eq_zero]
  intro hmem
  have := h c hmem
  omega

/-- Structure of a successful `ansiSeq` match: the whole escape sequence and
the remainder. -/
theorem ansiSeq_some {l r : List Char} (h : ansiSeq l = some r) :
    ∃ ps, l = '\x1b' :: '[' :: (ps ++ 'm' :: r) ∧ ∀ a ∈ ps, isAnsiParam a = true := by
  match l with
  | [] => simp [ansiSeq] at h
  | [c] => simp [ansiSeq] at h
  | c1 :: c2 :: rest =>
    simp only [ansiSeq] at h
    split_ifs at h with h1 h2
    subst h1
    subst h2
    rcases hdp : rest.dropWhile isAnsiParam with _ | ⟨d, rest2⟩ <;> rw [hdp] at h
    · simp at h
    · dsimp only at h
      split_ifs at h with hd
      subst hd
      obtain rfl : rest2 = r := by
        simpa using h
      refine ⟨rest.takeWhile isAnsiParam, ?_, ?_⟩
      · rw [← hdp, List.takeWhile_append_dropWhile]
      · intro a ha
        exact List.mem_takeWhile_imp ha

/-- Structure of a successful `escSeq` match. -/
theorem escSeq_some {l r : List Char} (h : escSeq l = some r) :
    ∃ ps d, l = '[' :: (ps ++ d :: r) ∧ (∀ a ∈ ps, isEscParam a = true) ∧
      isAsciiLetter d = true := by
  match l with
  | [] => simp [escSeq] at h
  | c1 :: rest =>
    simp only [escSeq] at h
    split_ifs at h with h1
    subst h1
    rcases hdp : rest.dropWhile isEscParam with _ | ⟨d, rest2⟩ <;> rw [hdp] at h
    · simp at h
    · dsimp only at h
      split_ifs at h with hd
      obtain rfl : rest2 = r := by
        simpa using h
      refine ⟨rest.takeWhile isEscParam, d, ?_, ?_, hd⟩
      · rw [← hdp, List.takeWhile_append_dropWhile]
      · intro a ha
        exact List.mem_takeWhile_imp ha

theorem stripAnsiFuel_count {c : Char} (hc : 160 ≤ c.toNat) :
    ∀ fuel l, (stripAnsiFuel fuel l).count c = l.count c := by
  intro fuel
  induction fuel with
  | zero =>
    intro l
    cases l <;> rfl
  | succ n ih =>
    intro l
    cases l with
    | nil => rfl
    | cons ch cs =>
      rcases ha : ansiSeq (ch :: cs) with _ | r
      · rw [show stripAnsiFuel (n+1) (ch :: cs) = ch :: stripAnsiFuel n cs by
          simp [stripAnsiFuel, ha]]
        simp [List.count_cons, ih]
      · obtain ⟨ps, hl, hps⟩ := ansiSeq_some ha
        rw [show stripAnsiFuel (n+1) (ch :: cs) = stripAnsiFuel n r by
          simp [stripAnsiFuel, ha]]
        rw [ih r, hl]
        have h1 : ¬ (c = '\x1b') := fun h => absurd hc (by rw [h]; decide)
        have h2 : ¬ (c = '[') := fun h => absurd hc (by rw [h]; decide)
        have h3 : ¬ (c = 'm') := fun h => absurd hc (by rw [h]; decide)
        have h4 : ps.count c = 0 :=
          count_eq_zero_of_small hc (fun a hm => isAnsiParam_small (hps a hm))
        simp [List.count_cons, List.count_append, h1, h2, h3, h4]

theorem escSubFuel_count {c : Char} (hc : 160 ≤ c.toNat) :
    ∀ fuel l, (escSubFuel fuel l).count c = l.count c := by
  intro fuel
  induction fuel with
  | zero =>
    intro l
    cases l <;> rfl
  | succ n ih =>
    intro l
    cases l with
    | nil => rfl
    | cons ch cs =>
      rcases ha : escSeq (ch :: cs) with _ | r
      · rw [show escSubFuel (n+1) (ch :: cs) = ch :: escSubFuel n cs by
          simp [escSubFuel, ha]]
        simp [List.count_cons, ih]
      · obtain ⟨ps, d, hl, hps, hd⟩ := escSeq_some ha
        rw [show escSubFuel (n+1) (ch :: cs) = escSubFuel n r by
          simp [escSubFuel, ha]]
        rw [ih r, hl]
        have h2 : ¬ (c = '[') := fun h => absurd hc (by rw [h]; decide)
        have h3 : ¬ (c = d) := by
          intro h
          subst h
          simp [isAsciiLetter] at hd
          omega
        have h4 : ps.count c = 0 :=
          count_eq_zero_of_small hc (fun a hm => isEscParam_small (hps a hm))
        simp [List.count_cons, List.count_append, h2, h3, h4]

theorem ctrlSub_count {c : Char} (h : isCtrlChar c = false) (l : List Char) :
    (ctrlSub l).count c = l.count c := by
  unfold ctrlSub
  rw [List.count_filter]
  simp [h]

theorem dropWhileWs_count {c : Char} (hc : isSpaceChar c = false) (l : List Char) :
    (l.dropWhile isSpaceChar).count c = l.count c := by
  conv_rhs => rw [← List.takeWhile_append_dropWhile (p := isSpaceChar) (l := l)]
  rw [List.count_append]
  have h0 : (l.takeWhile isSpaceChar).count c = 0 := by
    rw [List.count_eq_zero]
    intro hm
    have := List.mem_takeWhile_imp hm
    rw [hc] at this
    simp at this
  omega

theorem pyStrip_count {c : Char} (hc : isSpaceChar c = false) (l : List Char) :
    (pyStrip l).count c = l.count c := by
  unfold pyStrip
  rw [List.count_reverse, dropWhileWs_count hc, List.count_reverse, dropWhileWs_count hc]

theorem pyStrip_subset {l : List Char} {c : Char} (h : c ∈ pyStrip l) : c ∈ l := by
  unfold pyStrip at h
  rw [List.mem_reverse] at h
  have h1 := (List.dropWhile_sublist _).mem h
  rw [List.mem_reverse] at h1
  exact (List.dropWhile_sublist _).mem h1

theorem ctrlSub_no_ctrl {l : List Char} {c : Char} (h : c ∈ ctrlSub l) :
    isCtrlChar c = false := by
  unfold ctrlSub at h
  rw [List.mem_filter] at h
  simpa using h.2

/-- Unfolding of `extract_core` with the scrutinees exposed. -/
theorem extract_core_def (profile script : List Char) :
    extract_core profile script =
      match lastGreenEnd (stripAnsi script), idleStartIn profile (stripAnsi script) with
      | none, _ => .error .responseNotFound
      | some _, none => .error .incompleteResponse
      | some a, some b =>
        if (pyStrip (pySlice (stripAnsi script) a b)).isEmpty then .error .emptyResponse
        else .ok (pyStrip (ctrlSub (escSub (stripAnsi
          (pyStrip (pySlice (stripAnsi script) a b)))))) := rfl

/-- A successful extraction returns exactly the sanitized trimmed span. -/
theorem extract_ok_eq {profile script t : List Char}
    (h : extract_core profile script = .ok t) :
    t = sanitizePass (trimmedSpan profile script) := by
  rw [extract_core_def] at h
  rcases hg : lastGreenEnd (stripAnsi script) with _ | a <;> rw [hg] at h
  · simp at h
  rcases hi : idleStartIn profile (stripAnsi script) with _ | b <;> rw [hi] at h
  · simp at h
  dsimp only at h
  by_cases he : (pyStrip (pySlice (stripAnsi script) a b)).isEmpty = true
  · rw [if_pos he] at h
    simp at h
  · rw [if_neg he, Except.ok.injEq] at h
    subst h
    have hsp : trimmedSpan profile script = pyStrip (pySlice (stripAnsi script) a b) := by
      unfold trimmedSpan
      rw [hg, hi]
    rw [sanitizePass, hsp]

/-- C5: whenever extraction succeeds, the returned text contains no raw
escape byte and no control byte at all, while every character outside the
stripped ASCII ranges (in particular all non-ASCII printable text: accented
letters, CJK, emoji) occurs exactly as often as in the trimmed response
span. -/
theorem c5_sanitized_output :
    ∀ profile script t, extract_core profile script = .ok t →
      (∀ c ∈ t, c ≠ '\x1b' ∧ isCtrlChar c = false) ∧
      (∀ c : Char, 160 ≤ c.toNat →
        t.count c = (trimmedSpan profile script).count c) := by
  intro profile script t h
  have ht := extract_ok_eq h
  constructor
  · intro c hc
    rw [ht] at hc
    unfold sanitizePass at hc
    have hmem := pyStrip_subset hc
    have hctrl := ctrlSub_no_ctrl hmem
    refine ⟨?_, hctrl⟩
    intro hesc
    subst hesc
    exact absurd hctrl (by decide)
  · intro c hbig
    rw [ht]
    unfold sanitizePass escSub stripAnsi
    rw [pyStrip_count (isSpaceChar_of_big hbig),
      ctrlSub_count (isCtrlChar_of_big hbig),
      escSubFuel_count hbig, stripAnsiFuel_count hbig]

/-- Witness for C5 at a response containing CJK, accented and emoji
characters interleaved with color codes and control bytes. -/
theorem c5_sanitized_output_witness :
    extract_core "dev".toList
      "\x1b[32m> \x1b[39m日本\x07語 café 🚀\n[dev]>".toList =
      .ok "日本語 café 🚀".toList ∧
    (∀ c ∈ "日本語 café 🚀".toList, c ≠ '\x1b' ∧ isCtrlChar c = false) ∧
    (∀ c : Char, 160 ≤ c.toNat →
      ("日本語 café 🚀".toList).count c =
        (trimmedSpan "dev".toList
          "\x1b[32m> \x1b[39m日本\x07語 café 🚀\n[dev]>".toList).count c) := by
  have hok : extract_core "dev".toList
      "\x1b[32m> \x1b[39m日本\x07語 café 🚀\n[dev]>".toList =
      .ok "日本語 café 🚀".toList := by decide
  have h := c5_sanitized_output "dev".toList
    "\x1b[32m> \x1b[39m日本\x07語 café 🚀\n[dev]>".toList
    "日本語 café 🚀".toList hok
  exact ⟨hok, h.1, h.2⟩

/-! ## Structure of an idle prompt match -/

theorem skipWs_split (l : List Char) :
    ∃ w, l = w ++ skipWs l ∧ ∀ a ∈ w, isSpaceChar a = true :=
  ⟨l.takeWhile isSpaceChar,
    (List.takeWhile_append_dropWhile (p := isSpaceChar) (l := l)).symm,
    fun _ ha => List.mem_takeWhile_imp ha⟩

theorem allowedMid_of_space {a : Char} (h : isSpaceChar a = true) : allowedMid a = true := by
  simp [allowedMid, h]

theorem pctSkip_split (l : List Char) :
    ∃ w, l = w ++ pctSkip l ∧ ∀ a ∈ w, allowedMid a = true := by
  unfold pctSkip
  split_ifs with h
  · exact ⟨[], rfl, by simp⟩
  rcases hdp : l.dropWhile Char.isDigit with _ | ⟨d, rest⟩
  · exact ⟨[], by simp, by simp⟩
  by_cases hd : d = '%'
  · subst hd
    dsimp only
    rw [if_pos rfl]
    obtain ⟨w, hw, hwa⟩ := skipWs_split rest
    refine ⟨l.takeWhile Char.isDigit ++ '%' :: w, ?_, ?_⟩
    · conv_lhs => rw [← List.takeWhile_append_dropWhile (p := Char.isDigit) (l := l)]
      rw [hdp, List.append_assoc, List.cons_append, ← hw]
    · intro a ha
      simp only [List.mem_append, List.mem_cons] at ha
      rcases ha with ha | ha | ha
      · have := List.mem_takeWhile_imp ha
        simp [allowedMid, this]
      · subst ha
        decide
      · exact allowedMid_of_space (hwa a ha)
  · dsimp only
    rw [if_neg hd]
    exact ⟨[], by simp, by simp⟩

theorem bangSkip_split (l : List Char) :
    ∃ w, l = w ++ bangSkip l ∧ ∀ a ∈ w, allowedMid a = true := by
  cases l with
  | nil => exact ⟨[], rfl, by simp⟩
  | cons c cs =>
    by_cases hc : c = '!'
    · subst hc
      refine ⟨['!'], ?_, by decide⟩
      simp [bangSkip]
    · refine ⟨[], ?_, by simp⟩
      simp [bangSkip, hc]

/-- A successful idle tail decomposes as allowed middle characters, the `>`
glyph, and trailing whitespace. -/
theorem idleTailSpace_split {l : List Char} (h : idleTailSpace l = true) :
    ∃ m r, l = m ++ '>' :: r ∧ (∀ a ∈ m, allowedMid a = true) ∧
      r.all isSpaceChar = true := by
  unfold idleTailSpace at h
  rcases hb : bangSkip (pctSkip (skipWs l)) with _ | ⟨c, rest⟩ <;> rw [hb] at h
  · simp at h
  · dsimp only at h
    rw [Bool.and_eq_true, decide_eq_true_eq] at h
    obtain ⟨hc, hr⟩ := h
    subst hc
    obtain ⟨w1, he1, ha1⟩ := skipWs_split l
    obtain ⟨w2, he2, ha2⟩ := pctSkip_split (skipWs l)
    obtain ⟨w3, he3, ha3⟩ := bangSkip_split (pctSkip (skipWs l))
    refine ⟨w1 ++ (w2 ++ w3), rest, ?_, ?_, hr⟩
    · have e : l = w1 ++ (w2 ++ (w3 ++ ('>' :: rest))) := by
        rw [he1]
        congr 1
        rw [he2]
        congr 1
        rw [he3]
        congr 1
      rw [e]
      simp [List.append_assoc]
    · intro a ha
      simp only [List.mem_append] at ha
      rcases ha with ha | ha | ha
      · exact allowedMid_of_space (ha1 a ha)
      · exact ha2 a ha
      · exact ha3 a ha

/-- Structure of an idle prompt match: the buffer splits into the part before
the match, the bracketed profile, allowed middle characters, the `>` glyph
and trailing whitespace reaching the end of the buffer; the final equation
locates the match inside the buffer. -/
theorem idleMatchAt_split {profile s : List Char} {i : Nat}
    (h : idleMatchAt profile s i = true) :
    ∃ m r, s = s.take i ++ ('[' :: (profile ++ ']' :: (m ++ '>' :: r))) ∧
      (∀ a ∈ m, allowedMid a = true) ∧ r.all isSpaceChar = true ∧
      i + (profile.length + 2 + m.length + 1 + r.length) = s.length := by
  unfold idleMatchAt at h
  rw [Bool.and_eq_true] at h
  obtain ⟨hpre, htail⟩ := h
  rw [List.isPrefixOf_iff_prefix] at hpre
  obtain ⟨u, hu⟩ := hpre
  have hlenpat : ('[' :: (profile ++ [']'])).length = profile.length + 2 := by simp
  have hdrop : (s.drop i).drop (profile.length + 2) = u := by
    rw [← hu, ← hlenpat, List.drop_left]
  rw [hdrop] at htail
  obtain ⟨m, r, hm, hma, hra⟩ := idleTailSpace_split htail
  have hi : i ≤ s.length := by
    by_contra hgt
    push_neg at hgt
    rw [List.drop_eq_nil_of_le (le_of_lt hgt)] at hu
    simp at hu
  refine ⟨m, r, ?_, hma, hra, ?_⟩
  · conv_lhs => rw [← List.take_append_drop i s]
    rw [← hu, hm]
    simp
  · have h1 : (s.drop i).length = s.length - i := List.length_drop i s
    rw [← hu, hm] at h1
    simp [List.length_append] at h1
    omega

theorem hasIdle_exists {profile s : List Char} (h : hasIdlePrompt profile s = true) :
    ∃ i, idleMatchAt profile s i = true := by
  unfold hasIdlePrompt idleStartIn at h
  rw [Option.isSome_iff_exists] at h
  obtain ⟨i, hi⟩ := h
  exact ⟨i, List.find?_some hi⟩

theorem hasIdle_false_of_no_match {profile s : List Char}
    (h : ∀ i, idleMatchAt profile s i = false) : hasIdlePrompt profile s = false := by
  unfold hasIdlePrompt idleStartIn
  rw [List.find?_eq_none.mpr (fun x _ => by simp [h x])]
  rfl

/-! ## C9: the idle prompt is anchored to the end of the buffer -/

/-- C9: (a) an idle-prompt occurrence is counted only when nothing but
whitespace follows its `>` glyph — the pattern is searched without multiline
mode and ends in `$`; (b) consequently, when trailing text containing a
non-whitespace character (and no `>` that could close a new prompt) follows
the clean buffer, extraction raises `IncompleteResponse`, even when the
buffer holds earlier complete response/idle-prompt pairs. -/
theorem c9_idle_prompt_end_anchored :
    (∀ profile s i, idleMatchAt profile s i = true →
      ∃ a b, s = a ++ '>' :: b ∧ b.all isSpaceChar = true ∧ i ≤ a.length) ∧
    (∀ profile script s junk,
      stripAnsi script = s ++ junk →
      hasGreenArrow (stripAnsi script) = true →
      '>' ∉ junk →
      (∃ c ∈ junk, isSpaceChar c = false) →
      extract_core profile script = .error .incompleteResponse) := by
  have hpart1 : ∀ profile s i, idleMatchAt profile s i = true →
      ∃ a b, s = a ++ '>' :: b ∧ b.all isSpaceChar = true ∧ i ≤ a.length := by
    intro profile s i h
    obtain ⟨m, r, hs, _, hra, hlen⟩ := idleMatchAt_split h
    refine ⟨s.take i ++ ('[' :: (profile ++ ']' :: m)), r, ?_, hra, ?_⟩
    · conv_lhs => rw [hs]
      simp [List.append_assoc]
    · have htake : (s.take i).length = i := by
        rw [List.length_take]
        omega
      simp [List.length_append, htake]
  refine ⟨hpart1, ?_⟩
  intro profile script s junk hclean hgreen hgt hex
  obtain ⟨c, hcj, hcw⟩ := hex
  have hno : ∀ i, idleMatchAt profile (stripAnsi script) i = false := by
    intro i
    by_contra hne
    rw [Bool.not_eq_false] at hne
    obtain ⟨a, b, hs, hba, _⟩ := hpart1 profile (stripAnsi script) i hne
    obtain ⟨j1, j2, hj⟩ := List.append_of_mem hcj
    have hL : (s ++ j1) ++ c :: j2 = a ++ '>' :: b := by
      rw [List.append_assoc, ← hj, ← hclean, hs]
    rw [List.append_eq_append_iff] at hL
    rcases hL with ⟨a', _, h2⟩ | ⟨c', _, h2⟩
    · cases a' with
      | nil =>
        rw [List.nil_append] at h2
        have : c = '>' := (List.cons.injEq _ _ _ _).mp h2 |>.1
        subst this
        exact hgt hcj
      | cons x xs =>
        have hx : c = x ∧ j2 = xs ++ '>' :: b := by
          have := (List.cons.injEq _ _ _ _).mp (by simpa using h2)
          exact ⟨this.1, this.2⟩
        have : '>' ∈ j2 := by
          rw [hx.2]
          simp
        have : '>' ∈ junk := by
          rw [hj]
          simp [this]
        exact hgt this
    · cases c' with
      | nil =>
        rw [List.nil_append] at h2
        have : '>' = c := (List.cons.injEq _ _ _ _).mp h2 |>.1
        subst this
        exact hgt hcj
      | cons x xs =>
        have hx : '>' = x ∧ b = xs ++ c :: j2 := by
          have := (List.cons.injEq _ _ _ _).mp (by simpa using h2)
          exact ⟨this.1, this.2⟩
        have hcb : c ∈ b := by
          rw [hx.2]
          simp
        rw [List.all_eq_true] at hba
        have := hba c hcb
        rw [hcw] at this
        simp at this
  have hfalse : hasIdlePrompt profile (stripAnsi script) = false :=
    hasIdle_false_of_no_match hno
  exact (extract_core_cases profile script).2.1 hgreen hfalse

/-- Witness for C9: a buffer with a complete earlier pair, a second pair and
trailing text; both parts of the theorem instantiated. -/
theorem c9_idle_prompt_end_anchored_witness :
    (∃ a b, ("[dev]>".toList : List Char) = a ++ '>' :: b ∧
      b.all isSpaceChar = true ∧ 0 ≤ a.length) ∧
    stripAnsi "> A\n[dev]>\n> B\n[dev]> trailing".toList =
      "> A\n[dev]>\n> B\n[dev]>".toList ++ " trailing".toList ∧
    ('>' ∉ " trailing".toList) ∧
    (∃ c ∈ " trailing".toList, isSpaceChar c = false) ∧
    extract_core "dev".toList "> A\n[dev]>\n> B\n[dev]> trailing".toList =
      .error .incompleteResponse :=
  ⟨c9_idle_prompt_end_anchored.1 "dev".toList "[dev]>".toList 0 (by decide),
   by decide, by decide, by decide,
   c9_idle_prompt_end_anchored.2 "dev".toList
     "> A\n[dev]>\n> B\n[dev]> trailing".toList
     "> A\n[dev]>\n> B\n[dev]>".toList " trailing".toList
     (by decide) (by decide) (by decide) (by decide)⟩

/-! ## C6: the profile is embedded literally -/

/-- C6: the derived patterns match the profile literally even when it holds
regex metacharacters — profile `agent[1]` with buffer `[agent[1]]>`
classifies as IDLE — and a buffer ending in a different profile's bracketed
prompt (`[reviewer]>`) never matches the idle pattern derived for
`developer`, whatever precedes it. -/
theorem c6_profile_literal_matching :
    get_status_core "agent[1]".toList "[agent[1]]>".toList = .idle ∧
    ∀ s : List Char,
      hasIdlePrompt "developer".toList (s ++ "[reviewer]>".toList) = false := by
  refine ⟨by decide, ?_⟩
  intro s
  apply hasIdle_false_of_no_match
  intro i
  by_contra hne
  rw [Bool.not_eq_false] at hne
  obtain ⟨m, r, hs, hma, hra, _⟩ := idleMatchAt_split hne
  have hrev : ("[reviewer]>".toList : List Char).reverse =
      ['>', ']', 'r', 'e', 'w', 'e', 'i', 'v', 'e', 'r', '['] := by decide
  have hdevrev : ("developer".toList : List Char).reverse =
      ['r', 'e', 'p', 'o', 'l', 'e', 'v', 'e', 'd'] := by decide
  have E := congrArg List.reverse hs
  rw [List.reverse_append, hrev] at E
  simp only [List.reverse_append, List.reverse_cons, List.append_assoc,
    List.cons_append, List.nil_append, List.singleton_append, hdevrev] at E
  rcases hr' : r.reverse with _ | ⟨c0, rr⟩ <;> rw [hr'] at E
  case cons =>
    rw [List.cons_append] at E
    have hc0 : c0 = '>' := ((List.cons.injEq _ _ _ _).mp E.symm).1
    have : c0 ∈ r := by
      rw [← List.mem_reverse, hr']
      simp
    rw [List.all_eq_true] at hra
    have := hra c0 this
    rw [hc0] at this
    exact absurd this (by decide)
  rw [List.nil_append] at E
  rcases hm' : m.reverse with _ | ⟨c1, mm⟩ <;> rw [hm'] at E
  case cons =>
    rw [List.cons_append] at E
    have hc1 : ']' = c1 := by
      have := (List.cons.injEq _ _ _ _).mp E
      exact ((List.cons.injEq _ _ _ _).mp this.2).1
    have : c1 ∈ m := by
      rw [← List.mem_reverse, hm']
      simp
    have := hma c1 this
    rw [← hc1] at this
    exact absurd this (by decide)
  rw [List.nil_append] at E
  simp only [List.cons.injEq] at E
  exact absurd E.2.2.2.2.1 (by decide)

/-! ## C4: idempotence of extraction on its own output -/

theorem dropWhile_head_false {p : Char → Bool} :
    ∀ {l : List Char} {h : Char} {tl : List Char},
      l.dropWhile p = h :: tl → p h = false := by
  intro l
  induction l with
  | nil =>
    intro h tl he
    simp at he
  | cons a as ih =>
    intro h tl he
    by_cases hpa : p a = true
    · rw [List.dropWhile_cons_of_pos hpa] at he
      exact ih he
    · rw [List.dropWhile_cons_of_neg hpa] at he
      obtain ⟨rfl, _⟩ := (List.cons.injEq _ _ _ _).mp he
      simpa using hpa

theorem pyStrip_rev_head_false {x : List Char} {h : Char} {tl : List Char}
    (he : (pyStrip x).reverse = h :: tl) : isSpaceChar h = false := by
  unfold pyStrip at he
  rw [List.reverse_reverse] at he
  exact dropWhile_head_false he

theorem pyStrip_head_false {x : List Char} {h : Char} {tl : List Char}
    (he : pyStrip x = h :: tl) : isSpaceChar h = false := by
  unfold pyStrip at he
  have h1 : List.dropWhile isSpaceChar ((List.dropWhile isSpaceChar x).reverse) =
      (h :: tl).reverse := by
    rw [← he, List.reverse_reverse]
  have h2 := (List.dropWhile_suffix (l := (List.dropWhile isSpaceChar x).reverse)
    (p := isSpaceChar))
  rw [h1] at h2
  obtain ⟨w, hw⟩ := h2
  have h3 := congrArg List.reverse hw
  rw [List.reverse_append, List.reverse_reverse, List.reverse_reverse] at h3
  have h4 : List.dropWhile isSpaceChar x = h :: (tl ++ w.reverse) := by
    rw [← h3]
    simp
  exact dropWhile_head_false h4

/-- A list whose two ends are non-whitespace is a `pyStrip` fixed point. -/
theorem pyStrip_fixed {y : List Char}
    (hh : ∀ h tl, y = h :: tl → isSpaceChar h = false)
    (hr : ∀ h tl, y.reverse = h :: tl → isSpaceChar h = false) : pyStrip y = y := by
  cases hy : y with
  | nil => rfl
  | cons a as =>
    unfold pyStrip
    rw [← hy]
    rw [show List.dropWhile isSpaceChar y = y by
      rw [hy]
      exact List.dropWhile_cons_of_neg (by simp [hh a as hy])]
    cases hyr : y.reverse with
    | nil =>
      exfalso
      rw [hy] at hyr
      simp at hyr
    | cons b bs =>
      rw [List.dropWhile_cons_of_neg (by simp [hr b bs hyr]), ← hyr,
        List.reverse_reverse]

/-- The output of `pyStrip` is a `pyStrip` fixed point. -/
theorem pyStrip_idem (x : List Char) : pyStrip (pyStrip x) = pyStrip x :=
  pyStrip_fixed (fun _ _ he => pyStrip_head_false he)
    (fun _ _ he => pyStrip_rev_head_false he)

theorem ansiSeq_none_of_ne {c : Char} (cs : List Char) (h : c ≠ '\x1b') :
    ansiSeq (c :: cs) = none := by
  cases cs with
  | nil => rfl
  | cons c2 rest =>
    simp only [ansiSeq]
    rw [if_neg h]

/-- `stripAnsi` does not touch a buffer with no escape byte. -/
theorem stripAnsiFuel_id : ∀ (fuel : Nat) {l : List Char},
    (∀ c ∈ l, c ≠ '\x1b') → stripAnsiFuel fuel l = l := by
  intro fuel
  induction fuel with
  | zero =>
    intro l _
    cases l <;> rfl
  | succ n ih =>
    intro l hl
    cases l with
    | nil => rfl
    | cons c cs =>
      have hc : c ≠ '\x1b' := hl c (by simp)
      rw [show stripAnsiFuel (n+1) (c :: cs) = c :: stripAnsiFuel n cs by
        simp [stripAnsiFuel, ansiSeq_none_of_ne cs hc]]
      rw [ih (fun a ha => hl a (by simp [ha]))]

theorem stripAnsi_id {l : List Char} (h : ∀ c ∈ l, c ≠ '\x1b') : stripAnsi l = l :=
  stripAnsiFuel_id _ h

/-- `ctrlSub` does not touch a buffer with no control character. -/
theorem ctrlSub_id {l : List Char} (h : ∀ c ∈ l, isCtrlChar c = false) :
    ctrlSub l = l := by
  unfold ctrlSub
  rw [List.filter_eq_self]
  intro a ha
  simp [h a ha]

theorem find?_eq_some_of_unique {l : List Nat} {i : Nat} {p : Nat → Bool}
    (hmem : i ∈ l) (h : ∀ j ∈ l, p j = true ↔ j = i) : l.find? p = some i := by
  induction l with
  | nil => cases hmem
  | cons a as ih =>
    by_cases hpa : p a = true
    · have : a = i := (h a (by simp)).mp hpa
      subst this
      simp [List.find?_cons_of_pos _ hpa]
    · rw [List.find?_cons_of_neg _ (by simpa using hpa)]
      apply ih
      · rcases List.mem_cons.mp hmem with rfl | hm
        · exact absurd ((h i (by simp)).mpr rfl) hpa
        · exact hm
      · intro j hj
        exact h j (by simp [hj])

theorem filter_eq_single_of_unique {l : List Nat} {i : Nat} {p : Nat → Bool}
    (hnd : l.Nodup) (hmem : i ∈ l) (h : ∀ j ∈ l, p j = true ↔ j = i) :
    l.filter p = [i] := by
  induction l with
  | nil => cases hmem
  | cons a as ih =>
    rcases List.mem_cons.mp hmem with rfl | hm
    · rw [List.filter_cons_of_pos ((h i (by simp)).mpr rfl)]
      have hz : as.filter p = [] := by
        rw [List.filter_eq_nil_iff]
        intro j hj
        intro hp
        have : j = i := (h j (by simp [hj])).mp hp
        subst this
        exact (List.nodup_cons.mp hnd).1 hj
      rw [hz]
    · have hpa : p a = false := by
        rcases hp : p a with _ | _
        · rfl
        · have : a = i := (h a (by simp)).mp hp
          subst this
          exact absurd hm (List.nodup_cons.mp hnd).1
      rw [List.filter_cons_of_neg (by simp [hpa])]
      exact ih (List.nodup_cons.mp hnd).2 hm (fun j hj => h j (by simp [hj]))

/-- A character occurring nowhere in `A` nor `B` pins down its position in
`A ++ x :: B`. -/
theorem getElem?_unique_pos {x : Char} {A B : List Char} (hA : x ∉ A) (hB : x ∉ B) :
    ∀ k, (A ++ x :: B)[k]? = some x → k = A.length := by
  intro k hk
  rcases Nat.lt_trichotomy k A.length with hlt | heq | hgt
  · rw [List.getElem?_append_left hlt] at hk
    exact absurd (List.getElem?_mem hk) hA
  · exact heq
  · rw [List.getElem?_append_right (Nat.le_of_lt hgt)] at hk
    rcases hd : k - A.length with _ | d
    · omega
    · rw [hd] at hk
      rw [List.getElem?_cons_succ] at hk
      exact absurd (List.getElem?_mem hk) hB

theorem wrapMsg_eq (profile t : List Char) :
    wrapMsg profile t =
      ('>' :: ' ' :: (t ++ ['\n'])) ++ ('[' :: (profile ++ [']', '>'])) := by
  unfold wrapMsg
  simp

theorem wrapMsg_length (profile t : List Char) :
    (wrapMsg profile t).length = t.length + profile.length + 6 := by
  unfold wrapMsg
  simp
  omega

/-- The single newline of the wrapped message sits right after the text. -/
theorem wrap_newline_pos {profile t : List Char} (hnt : '\n' ∉ t) (hnp : '\n' ∉ profile) :
    ∀ k, (wrapMsg profile t)[k]? = some '\n' → k = t.length + 2 := by
  intro k hk
  have hA : '\n' ∉ ('>' :: ' ' :: t) := by
    simp only [List.mem_cons]
    push_neg
    exact ⟨by decide, by decide, hnt⟩
  have hB : '\n' ∉ ('[' :: (profile ++ [']', '>'])) := by
    simp only [List.mem_cons, List.mem_append]
    push_neg
    exact ⟨by decide, hnp, by decide⟩
  have he : wrapMsg profile t =
      ('>' :: ' ' :: t) ++ '\n' :: ('[' :: (profile ++ [']', '>'])) := by
    unfold wrapMsg
    simp
  rw [he] at hk
  have := getElem?_unique_pos hA hB k hk
  simpa using this

/-- The wrapped message's only response-marker match is at position 0. -/
theorem wrap_green {profile t : List Char} (hnt : '\n' ∉ t) (hnp : '\n' ∉ profile) :
    ∀ j, j < (wrapMsg profile t).length →
      (greenArrowAt (wrapMsg profile t) j = true ↔ j = 0) := by
  intro j _
  constructor
  · intro h
    unfold greenArrowAt lineStartAt at h
    rw [Bool.and_eq_true] at h
    obtain ⟨hls, hgt⟩ := h
    rw [Bool.or_eq_true] at hls
    rcases hls with h0 | hnl
    · simpa using h0
    · exfalso
      have hj1 : (wrapMsg profile t)[j-1]? = some '\n' := by simpa using hnl
      have hpos := wrap_newline_pos hnt hnp (j-1) hj1
      have hj3 : j = t.length + 3 := by omega
      have hbr : (wrapMsg profile t)[j]? = some '[' := by
        rw [wrapMsg_eq, hj3]
        rw [show t.length + 3 = ('>' :: ' ' :: (t ++ ['\n'])).length by simp]
        rw [List.getElem?_append_right (Nat.le_refl _)]
        simp
      rw [hbr] at hgt
      simp at hgt
  · intro h0
    subst h0
    unfold greenArrowAt lineStartAt wrapMsg
    simp

theorem wrap_greenStarts {profile t : List Char} (hnt : '\n' ∉ t) (hnp : '\n' ∉ profile) :
    greenStarts (wrapMsg profile t) = [0] := by
  unfold greenStarts
  apply filter_eq_single_of_unique (List.nodup_range _)
  · rw [List.mem_range, wrapMsg_length]
    omega
  · intro j hj
    exact wrap_green hnt hnp j (List.mem_range.mp hj)

theorem wrap_lastGreenEnd {profile t : List Char} {th : Char} {tt : List Char}
    (hnt : '\n' ∉ t) (hnp : '\n' ∉ profile) (ht : t = th :: tt)
    (hth : isSpaceChar th = false) :
    lastGreenEnd (wrapMsg profile t) = some 2 := by
  unfold lastGreenEnd
  rw [wrap_greenStarts hnt hnp]
  have hdrop : (wrapMsg profile t).tail = ' ' :: th :: (tt ++ ('\n' :: '[' :: (profile ++ "]>".toList))) := by
    unfold wrapMsg
    rw [ht]
    simp
  have hws : wsRun ((wrapMsg profile t).tail) = 1 := by
    rw [hdrop]
    unfold wsRun
    rw [List.takeWhile_cons_of_pos (by decide), List.takeWhile_cons_of_neg (by simp [hth])]
    rfl
  simp [hws]

/-- The canonical idle prompt match of the wrapped message. -/
theorem wrap_idle_canonical (profile t : List Char) :
    idleMatchAt profile (wrapMsg profile t) (t.length + 3) = true := by
  unfold idleMatchAt
  rw [wrapMsg_eq]
  rw [show t.length + 3 = ('>' :: ' ' :: (t ++ ['\n'])).length by simp, List.drop_left]
  rw [Bool.and_eq_true]
  constructor
  · rw [List.isPrefixOf_iff_prefix]
    exact ⟨['>'], by simp⟩
  · rw [show ('[' :: (profile ++ [']', '>'])) = ('[' :: (profile ++ [']'])) ++ ['>'] by simp]
    rw [show profile.length + 2 = ('[' :: (profile ++ [']'])).length by simp, List.drop_left]
    decide

/-- The wrapped message admits no idle prompt match except the canonical
one: any match must end the buffer, whose final characters are fixed. -/
theorem wrap_idle_unique {profile t : List Char} :
    ∀ j, idleMatchAt profile (wrapMsg profile t) j = true → j = t.length + 3 := by
  intro j h
  obtain ⟨m, r, hs, hma, hra, hlen⟩ := idleMatchAt_split h
  have hrevW : (wrapMsg profile t).reverse =
      '>' :: ']' :: (profile.reverse ++ '[' :: '\n' :: (t.reverse ++ [' ', '>'])) := by
    unfold wrapMsg
    simp
  have E := congrArg List.reverse hs
  rw [hrevW] at E
  simp only [List.reverse_append, List.reverse_cons, List.append_assoc, List.cons_append,
    List.nil_append, List.singleton_append] at E
  rcases hr' : r.reverse with _ | ⟨c0, rr⟩ <;> rw [hr'] at E
  case cons =>
    exfalso
    rw [List.cons_append] at E
    have hc0 : c0 = '>' := ((List.cons.injEq _ _ _ _).mp E.symm).1
    have hmem : c0 ∈ r := by
      rw [← List.mem_reverse, hr']
      simp
    rw [List.all_eq_true] at hra
    have := hra c0 hmem
    rw [hc0] at this
    exact absurd this (by decide)
  rw [List.nil_append] at E
  rcases hm' : m.reverse with _ | ⟨c1, mm⟩ <;> rw [hm'] at E
  case cons =>
    exfalso
    rw [List.cons_append] at E
    have hc1 : ']' = c1 := by
      have h1 := (List.cons.injEq _ _ _ _).mp E
      exact ((List.cons.injEq _ _ _ _).mp h1.2).1
    have hmem : c1 ∈ m := by
      rw [← List.mem_reverse, hm']
      simp
    have := hma c1 hmem
    rw [← hc1] at this
    exact absurd this (by decide)
  have hr0 : r = [] := List.reverse_eq_nil_iff.mp hr'
  have hm0 : m = [] := List.reverse_eq_nil_iff.mp hm'
  rw [hr0, hm0] at hlen
  rw [wrapMsg_length] at hlen
  simp at hlen
  omega

theorem pyStrip_append_newline {t : List Char} (hs : pyStrip t = t) (hne : t ≠ []) :
    pyStrip (t ++ ['\n']) = t := by
  obtain ⟨th, tt, ht⟩ : ∃ th tt, t = th :: tt := by
    cases t with
    | nil => exact absurd rfl hne
    | cons a as => exact ⟨a, as, rfl⟩
  have hth : isSpaceChar th = false := by
    apply pyStrip_head_false (x := t)
    rw [hs]
    exact ht
  obtain ⟨lh, lt, hrev⟩ : ∃ lh lt, t.reverse = lh :: lt := by
    cases hc : t.reverse with
    | nil => exact absurd (by simpa using congrArg List.reverse hc) hne
    | cons a as => exact ⟨a, as, rfl⟩
  have hlh : isSpaceChar lh = false := by
    apply pyStrip_rev_head_false (x := t)
    rw [hs]
    exact hrev
  unfold pyStrip
  rw [show t ++ ['\n'] = th :: (tt ++ ['\n']) by rw [ht]; simp]
  rw [List.dropWhile_cons_of_neg (by simp [hth])]
  rw [show (th :: (tt ++ ['\n'])).reverse = '\n' :: t.reverse by
    rw [ht]
    simp]
  rw [List.dropWhile_cons_of_pos (by decide)]
  rw [hrev, List.dropWhile_cons_of_neg (by simp [hlh]), ← hrev, List.reverse_reverse]

/-- Counterexample to C4 as stated: this extraction succeeds with
`t = "[abc"` (a control byte shielded the `[` from the escape-sequence pass,
which then ran out of letters to match), but re-running extraction on the
wrapped `t` applies that pass again and returns `"bc"`, not `t`. -/
theorem c4_counterexample :
    extract_core "dev".toList "\x1b[32m> \x1b[39m[\x01abc\n[dev]>".toList =
      .ok "[abc".toList ∧
    extract_core "dev".toList (wrapMsg "dev".toList "[abc".toList) = .ok "bc".toList ∧
    ("bc".toList : List Char) ≠ "[abc".toList := by
  refine ⟨by decide, by decide, by decide⟩

/-- C4 (amended): extraction is idempotent on its output *provided the output
is a fixed point of the escape-sequence pass* (and nonempty, and the profile
contains no control character): for every snapshot on which extraction
succeeds with such a result `t`, re-running extraction on `t` wrapped with a
synthetic response marker and the profile's idle prompt yields `t` again. -/
theorem c4_amended_idempotence :
    ∀ profile script t,
      extract_core profile script = .ok t →
      t ≠ [] →
      escSub t = t →
      (∀ c ∈ profile, isCtrlChar c = false) →
      extract_core profile (wrapMsg profile t) = .ok t := by
  intro profile script t hok hne hesc hcp
  have ht := extract_ok_eq hok
  have hct : ∀ c ∈ t, isCtrlChar c = false := by
    intro c hc
    rw [ht] at hc
    unfold sanitizePass at hc
    exact ctrlSub_no_ctrl (pyStrip_subset hc)
  have hstripT : pyStrip t = t := by
    rw [ht]
    unfold sanitizePass
    exact pyStrip_idem _
  have hnt : '\n' ∉ t := fun hm => absurd (hct '\n' hm) (by decide)
  have hnp : '\n' ∉ profile := fun hm => absurd (hcp '\n' hm) (by decide)
  have hescT : ∀ c ∈ t, c ≠ '\x1b' := fun c hc he => by
    subst he
    exact absurd (hct _ hc) (by decide)
  obtain ⟨th, tt, htht⟩ : ∃ th tt, t = th :: tt := by
    cases t with
    | nil => exact absurd rfl hne
    | cons a as => exact ⟨a, as, rfl⟩
  have hth : isSpaceChar th = false := by
    apply pyStrip_head_false (x := t)
    rw [hstripT]
    exact htht
  have hWesc : ∀ c ∈ wrapMsg profile t, c ≠ '\x1b' := by
    intro c hc he
    subst he
    unfold wrapMsg at hc
    rw [List.append_assoc] at hc
    rcases List.mem_append.mp hc with hca | hc1
    · exact absurd hca (by decide)
    rcases List.mem_append.mp hc1 with hcb | hc2
    · exact absurd (hct _ hcb) (by decide)
    rcases List.mem_cons.mp hc2 with h1 | h2
    · exact absurd h1 (by decide)
    rcases List.mem_cons.mp h2 with h3 | h4
    · exact absurd h3 (by decide)
    rcases List.mem_append.mp h4 with h5 | h6
    · exact absurd (hcp _ h5) (by decide)
    · exact absurd h6 (by decide)
  have hstripW : stripAnsi (wrapMsg profile t) = wrapMsg profile t := stripAnsi_id hWesc
  have hG : lastGreenEnd (wrapMsg profile t) = some 2 :=
    wrap_lastGreenEnd hnt hnp htht hth
  have hI : idleStartIn profile (wrapMsg profile t) = some (t.length + 3) := by
    unfold idleStartIn
    apply find?_eq_some_of_unique
    · rw [List.mem_range, wrapMsg_length]
      omega
    · intro j _
      exact ⟨fun h => wrap_idle_unique j h, fun h => h ▸ wrap_idle_canonical profile t⟩
  rw [extract_core_def, hstripW, hG, hI]
  dsimp only
  have hW2 : wrapMsg profile t = '>' :: ' ' :: (t ++ '\n' :: '[' :: (profile ++ "]>".toList)) := by
    unfold wrapMsg
    simp
  have hslice : pySlice (wrapMsg profile t) 2 (t.length + 3) = t ++ ['\n'] := by
    unfold pySlice
    rw [hW2]
    rw [List.drop_succ_cons, List.drop_succ_cons, List.drop_zero]
    rw [show t.length + 3 - 2 = t.length + 1 by omega]
    rw [show t ++ '\n' :: '[' :: (profile ++ "]>".toList) =
      t ++ ['\n'] ++ ('[' :: (profile ++ "]>".toList)) by simp]
    rw [show t.length + 1 = (t ++ ['\n']).length by simp]
    rw [List.take_left]
  rw [hslice, pyStrip_append_newline hstripT hne]
  rw [if_neg (by simp [hne])]
  rw [stripAnsi_id hescT, hesc, ctrlSub_id hct, hstripT]

/-- Witness for the amended C4: the `World` extraction's output wrapped with
the synthetic pair extracts to `World` again. -/
theorem c4_amended_idempotence_witness :
    extract_core "dev".toList
      "\x1b[32m> \x1b[39mHello\n[dev]>\n\x1b[32m> \x1b[39mWorld\n[dev]>".toList =
      .ok "World".toList ∧
    ("World".toList : List Char) ≠ [] ∧
    escSub "World".toList = "World".toList ∧
    (∀ c ∈ "dev".toList, isCtrlChar c = false) ∧
    extract_core "dev".toList (wrapMsg "dev".toList "World".toList) =
      .ok "World".toList :=
  ⟨by decide, by decide, by decide, by decide,
    c4_amended_idempotence "dev".toList
      "\x1b[32m> \x1b[39mHello\n[dev]>\n\x1b[32m> \x1b[39mWorld\n[dev]>".toList
      "World".toList (by decide) (by decide) (by decide) (by decide)⟩

end Cao
